import Mathlib

/-!
AOE-Tools: verification of the release pipeline and acquisition pipeline

Shallow embedding of the core logic of the AOE-Tools repository:
the launcher's `NetworkManager` (src/launcher/core/network.py) and
`BackupManager` (src/launcher/core/backup.py), and the uploader's
`ReleaseWorkflow` (src/uploader/core/workflow.py) and
`GitHubGitProvider` (src/uploader/providers/github_git.py).

Python dictionaries are embedded as insertion-ordered association lists,
file contents as lists of byte values, progress fractions as rationals,
and filesystem paths as strings manipulated by faithful translations of
`os.path.join` / `os.path.normpath` (POSIX flavour).
-/

set_option autoImplicit false

namespace AOETools

/-! ## Data model (src/launcher/core/models.py)

`Version` is one entry of `versions.json`; pydantic defaults `latest` and
`profiler` to `False` when absent, so an absent key is embedded as `false`. -/
structure Version where
  version : String
  manifest_urls : List (String × String)
  download_urls : List (String × String)
  latest : Bool := false
  profiler : Bool := false
  deriving Repr, DecidableEq

/-! ## NetworkManager.find_latest_version (network.py lines 35-42)

The Python loop returns the first element whose `latest` flag is truthy and
falls through to `return None`; this is exactly `List.find?`. -/
def find_latest_version (versions : List Version) : Option Version :=
  versions.find? (fun v => v.latest)

/-- A one-entry index whose entry is not flagged `latest`. -/
def unlistedVersion : Version :=
  { version := "1.0"
    manifest_urls := [("GitHub Git", "https://example.invalid/manifest-v1.0.json")]
    download_urls := [("Catbox", "https://example.invalid/AOEngine-v1.0.tar.zst")] }

/-! ## ReleaseWorkflow, step 5: update version index (workflow.py lines 153-179)

Index rows are raw JSON dictionaries in the uploader; `entry.pop("latest")`
removes the key, and a missing key reads back as `false` on the consumer side
(pydantic default), so the embedding keeps a `latest : Bool` field and `pop`
becomes setting it to `false`. -/
structure IndexEntry where
  version : String
  manifest_urls : List (String × String)
  download_urls : List (String × String)
  latest : Bool := false
  profiler : Bool := false
  deriving Repr, DecidableEq

def update_version_index (current : List IndexEntry) (version : String)
    (manifest_urls download_urls : List (String × String))
    (profiler : Bool) : List IndexEntry :=
  let stripped := if profiler then current
    else current.map (fun e => { e with latest := false })
  let newEntry : IndexEntry :=
    { version := version, manifest_urls := manifest_urls,
      download_urls := download_urls, profiler := profiler,
      latest := if profiler then false else true }
  newEntry :: stripped

/-- Number of non-variant entries carrying `latest = true`. -/
def latestNonVariantCount (entries : List IndexEntry) : Nat :=
  (entries.filter (fun e => !e.profiler && e.latest)).length

/-- Python `str.endswith`: the candidate suffix's characters form a suffix of
the string's characters. -/
def strEndsWith (s suf : String) : Bool :=
  suf.data.isSuffixOf s.data

/-- Python dict assignment `d[k] = v`: overwrite in place if the key exists,
else append at the end (insertion order). -/
def dictInsert (d : List (String × String)) (k v : String) :
    List (String × String) :=
  if d.any (fun p => p.1 == k) then
    d.map (fun p => if p.1 == k then (k, v) else p)
  else d ++ [(k, v)]

/-- Outcome of one provider's two uploads in one workflow run: the URL each
upload returned, or `none` when `_upload_asset` swallowed an exception. -/
structure ProviderUpload where
  name : String
  archive_result : Option String
  manifest_result : Option String
  deriving Repr, DecidableEq

/-- The `(provider × file)` upload results in submission order: for every
provider, first the archive (named `AOEngine-v<V>.tar.zst`), then the
manifest (named `manifest-v<V>.json`). -/
def uploadResults (version_str : String) :
    List ProviderUpload → List (String × String × Option String)
  | [] => []
  | p :: ps =>
    (p.name, "AOEngine-v" ++ version_str ++ ".tar.zst", p.archive_result) ::
      (p.name, "manifest-v" ++ version_str ++ ".json", p.manifest_result) ::
      uploadResults version_str ps

/-- Processing of one completed upload future (workflow.py lines 130-138). -/
def collectStep (acc : List (String × String) × List (String × String))
    (r : String × String × Option String) :
    List (String × String) × List (String × String) :=
  match r.2.2 with
  | none => acc
  | some url =>
    if strEndsWith r.2.1 ".tar.zst" then (dictInsert acc.1 r.1 url, acc.2)
    else if strEndsWith r.2.1 ".json" then
      if r.1 = "GitHub Releases" then acc
      else (acc.1, dictInsert acc.2 r.1 url)
    else acc

/-- The parallel-upload stage: `(download_urls, manifest_urls)`. -/
def parallel_upload (version_str : String) (providers : List ProviderUpload) :
    List (String × String) × List (String × String) :=
  (uploadResults version_str providers).foldl collectStep ([], [])

/-- Model of `ReleaseWorkflow.run` from the upload stage to the index update
(workflow.py lines 117-179): abort when no provider produced an archive URL,
otherwise add the index repository's canonical manifest URL and publish the
updated index. -/
def run_publish (version version_str : String)
    (providers : List ProviderUpload)
    (index_provider_name canonical_manifest_url : String)
    (current : List IndexEntry) (profiler : Bool) :
    Except String (List IndexEntry) :=
  if (parallel_upload version_str providers).1.isEmpty then
    Except.error "Failed to upload archive to any provider. Aborting."
  else
    Except.ok (update_version_index current version
      (dictInsert (parallel_upload version_str providers).2
        index_provider_name canonical_manifest_url)
      (parallel_upload version_str providers).1 profiler)

/-! ## Hashing (network.py lines 114-134)

`hashlib.sha256` computed over the file's bytes (the 4096-byte chunked reads
accumulate to the digest of the whole content); bytes are `Nat < 256`, words
are `Nat` reduced `% 2^32`, and `hexdigest` is the lowercase hex string. -/
def w32 (x : Nat) : Nat := x % 4294967296

def rotr32 (x n : Nat) : Nat := w32 ((x >>> n) ||| (x <<< (32 - n)))

def sha256K : List Nat :=
  [1116352408, 1899447441, 3049323471, 3921009573, 961987163,
   1508970993, 2453635748, 2870763221, 3624381080, 310598401,
   607225278, 1426881987, 1925078388, 2162078206, 2614888103,
   3248222580, 3835390401, 4022224774, 264347078, 604807628,
   770255983, 1249150122, 1555081692, 1996064986, 2554220882,
   2821834349, 2952996808, 3210313671, 3336571891, 3584528711,
   113926993, 338241895, 666307205, 773529912, 1294757372,
   1396182291, 1695183700, 1986661051, 2177026350, 2456956037,
   2730485921, 2820302411, 3259730800, 3345764771, 3516065817,
   3600352804, 4094571909, 275423344, 430227734, 506948616,
   659060556, 883997877, 958139571, 1322822218, 1537002063,
   1747873779, 1955562222, 2024104815, 2227730452, 2361852424,
   2428436474, 2756734187, 3204031479, 3329325298]

def sha256H0 : List Nat :=
  [1779033703, 3144134277, 1013904242, 2773480762,
   1359893119, 2600822924, 528734635, 1541459225]

def natToBytesBE (len n : Nat) : List Nat :=
  (List.range len).map (fun i => (n >>> (8 * (len - 1 - i))) % 256)

def sha256Pad (msg : List Nat) : List Nat :=
  let L := msg.length
  msg ++ [0x80] ++ List.replicate ((119 - L % 64) % 64) 0 ++
    natToBytesBE 8 (8 * L)

def bytesToWordBE (bs : List Nat) : Nat :=
  bs.foldl (fun acc b => acc * 256 + b) 0

def toBlocks (l : List Nat) : List (List Nat) :=
  if h : l = [] then [] else l.take 64 :: toBlocks (l.drop 64)
termination_by l.length
decreasing_by
  simp only [List.length_drop]
  have : l.length ≠ 0 := by simpa [List.length_eq_zero] using h
  omega

def toWords (l : List Nat) : List Nat :=
  if h : l = [] then [] else bytesToWordBE (l.take 4) :: toWords (l.drop 4)
termination_by l.length
decreasing_by
  simp only [List.length_drop]
  have : l.length ≠ 0 := by simpa [List.length_eq_zero] using h
  omega

def smallSigma0 (x : Nat) : Nat := rotr32 x 7 ^^^ rotr32 x 18 ^^^ (x >>> 3)

def smallSigma1 (x : Nat) : Nat := rotr32 x 17 ^^^ rotr32 x 19 ^^^ (x >>> 10)

def bigSigma0 (x : Nat) : Nat := rotr32 x 2 ^^^ rotr32 x 13 ^^^ rotr32 x 22

def bigSigma1 (x : Nat) : Nat := rotr32 x 6 ^^^ rotr32 x 11 ^^^ rotr32 x 25

def scheduleFrom (w : List Nat) : Nat → List Nat
  | 0 => w
  | r + 1 =>
    let t := w.length
    scheduleFrom (w ++ [w32 (smallSigma1 (w.getD (t - 2) 0) +
      w.getD (t - 7) 0 + smallSigma0 (w.getD (t - 15) 0) +
      w.getD (t - 16) 0)]) r

def sha256Round (s : List Nat) (kt wt : Nat) : List Nat :=
  match s with
  | [a, b, c, d, e, f, g, h] =>
    let ch := (e &&& f) ^^^ ((e ^^^ 0xffffffff) &&& g)
    let maj := (a &&& b) ^^^ (a &&& c) ^^^ (b &&& c)
    let t1 := w32 (h + bigSigma1 e + ch + kt + wt)
    let t2 := w32 (bigSigma0 a + maj)
    [w32 (t1 + t2), a, b, c, w32 (d + t1), e, f, g]
  | s => s

def processBlock (H : List Nat) (block : List Nat) : List Nat :=
  let w := scheduleFrom (toWords block) 48
  let s := (List.zip sha256K w).foldl
    (fun st kw => sha256Round st kw.1 kw.2) H
  List.zipWith (fun x y => w32 (x + y)) H s

def sha256Words (msg : List Nat) : List Nat :=
  (toBlocks (sha256Pad msg)).foldl processBlock sha256H0

def hexDigitChar (n : Nat) : Char :=
  "0123456789abcdef".toList.getD n '0'

def wordToHex (w : Nat) : List Char :=
  (List.range 8).map (fun i => hexDigitChar ((w >>> (4 * (7 - i))) % 16))

def sha256Hexdigest (msg : List Nat) : String :=
  String.mk ((sha256Words msg).flatMap wordToHex)

/-- Model of `NetworkManager.verify_sha256`: hash the file and compare with the
expected hex string; a missing file (`FileNotFoundError`) yields `false`
instead of an exception.  The filesystem is a partial map from paths to
byte contents. -/
def verify_sha256 (fs : String → Option (List Nat))
    (file_path expected_hash : String) : Bool :=
  match fs file_path with
  | none => false
  | some bytes => sha256Hexdigest bytes == expected_hash

/-- A one-file filesystem holding an empty file at path `f`. -/
def c6Fs : String → Option (List Nat) :=
  fun p => if p = "f" then some [] else none

/-! ## POSIX path arithmetic

Character-list translations of `os.path.normpath` and `os.path.join`
(POSIX flavour), needed by the path-traversal check in
`BackupManager.restore_backup` (backup.py lines 129-132) and by the
resolution of extracted member paths. -/
def splitOnSlash : List Char → List (List Char)
  | [] => [[]]
  | c :: rest =>
    let r := splitOnSlash rest
    if c = '/' then [] :: r
    else (c :: r.headD []) :: r.tail

def intercalateSlash : List (List Char) → List Char
  | [] => []
  | [c] => c
  | c :: rest => c ++ '/' :: intercalateSlash rest

def normStep (absolute : Bool) (acc : List (List Char)) (comp : List Char) :
    List (List Char) :=
  if comp = [] ∨ comp = ['.'] then acc
  else if comp ≠ ['.', '.'] ∨ (¬ absolute ∧ acc = []) ∨
      (acc ≠ [] ∧ acc.getLast? = some ['.', '.']) then acc ++ [comp]
  else if acc ≠ [] then acc.dropLast
  else acc

def normpath (path : String) : String :=
  if path.data = [] then "."
  else
    let abs1 : Bool := path.data.headD ' ' = '/'
    let slashes : Nat :=
      if path.data.take 2 = ['/', '/'] ∧ ¬ path.data.take 3 = ['/', '/', '/']
      then 2 else if abs1 then 1 else 0
    let comps := splitOnSlash path.data
    let newComps := comps.foldl (normStep abs1) []
    let out := List.replicate slashes '/' ++ intercalateSlash newComps
    if out = [] then "." else String.mk out

def joinPath (a b : String) : String :=
  if b.data.headD ' ' = '/' then b
  else if a.data = [] ∨ a.data.getLast? = some '/' then
    String.mk (a.data ++ b.data)
  else String.mk (a.data ++ '/' :: b.data)

/-- Python `str.startswith`: character-sequence prefix test. -/
def pyStartsWith (s pre : String) : Bool :=
  pre.data.isPrefixOf s.data

/-- The security check of `BackupManager.restore_backup` (backup.py lines
129-132): the normalized joined member path must start, as a raw string,
with the normalized install directory. -/
def restore_member_check (bin_path member_name : String) : Bool :=
  pyStartsWith (normpath (joinPath bin_path member_name)) (normpath bin_path)

/-- The extraction loop of `restore_backup` (backup.py lines 125-138) over
the archive entries `(member name, bytes)`: each member is checked before
`tar.extract`; the first failing member raises an `IOError` and stops the
loop, leaving the previously extracted members in place. -/
def restoreLoop (bin_path : String) :
    List (String × List Nat) → List (String × List Nat) × Option String
  | [] => ([], none)
  | e :: rest =>
    if restore_member_check bin_path e.1 then
      let r := restoreLoop bin_path rest
      (e :: r.1, r.2)
    else ([], some ("Attempted path traversal in backup detected: " ++ e.1))

/-- The extraction loop of `NetworkManager.extract_archive` (network.py
lines 159-167): every member is extracted at its resolved destination with
no check of any kind. -/
def extract_archive_writes (destination : String) (members : List String) :
    List String :=
  members.map (fun m => normpath (joinPath destination m))

/-- Spec-side notion of a resolved path lying inside the destination root:
it is the root itself or lies below `root ++ "/"`. -/
def insideRoot (root p : String) : Bool :=
  p == normpath root || (normpath root ++ "/").data.isPrefixOf p.data

/-! ## BackupManager state (backup.py lines 23-82 and 96-145)

The backup root directory is an insertion-ordered association list from file
names (relative to the backup root) to file data: a metadata sidecar holding
`total_files`, an archive holding its `(arcname, bytes)` entries in order, or
a file whose text is not parseable JSON (`json.load` raises).  `create_backup`
takes the enumerated install files as `bin_files` (the `os.walk`/explicit
list) and the timestamp as an input; for the sentinel version `initial` the
backup name is the fixed `initial_vanilla_files` and an existing archive
makes the call return immediately, before the sidecar would be written. -/
inductive FileData where
  | meta (total_files : Nat)
  | archive (entries : List (String × List Nat))
  | invalidJson
  deriving Repr, DecidableEq

def assocSet {β : Type} : List (String × β) → String → β → List (String × β)
  | [], k, v => [(k, v)]
  | p :: rest, k, v =>
    if p.1 = k then (k, v) :: rest
    else p :: assocSet rest k v

def assocGet {β : Type} (d : List (String × β)) (k : String) : Option β :=
  (d.find? (fun p => p.1 == k)).map Prod.snd

def backupName (version timestamp : String) : String :=
  if version = "initial" then "initial_vanilla_files"
  else "v" ++ version ++ "_" ++ timestamp

def create_backup (dir : List (String × FileData)) (version timestamp : String)
    (bin_files : List (String × List Nat)) : List (String × FileData) :=
  if version = "initial" ∧
      (assocGet dir (backupName version timestamp ++ ".tar.zst")).isSome then
    dir
  else
    assocSet
      (assocSet dir (backupName version timestamp ++ ".meta.json")
        (FileData.meta bin_files.length))
      (backupName version timestamp ++ ".tar.zst") (FileData.archive bin_files)

/-- Python `str.replace(".tar.zst", ".meta.json")` specialised to its fixed
pattern, with the character count as structural fuel (one character is
consumed per step, so full fuel always suffices). -/
def metaPathGo : Nat → List Char → List Char
  | 0, _ => []
  | _, [] => []
  | fuel + 1, c :: rest =>
    if ".tar.zst".data.isPrefixOf (c :: rest) then
      ".meta.json".data ++ metaPathGo fuel (rest.drop 7)
    else c :: metaPathGo fuel rest

def metaPathOf (archive_name : String) : String :=
  String.mk (metaPathGo archive_name.data.length archive_name.data)

structure LauncherState where
  binDir : Option (List (String × List Nat))
  backups : List (String × FileData)
  deriving Repr, DecidableEq

/-- Model of `BackupManager.restore_backup` (backup.py lines 96-145): both existence
checks precede the `shutil.rmtree` of the `bin` directory, which in turn
precedes parsing the sidecar, so a sidecar that fails `json.load` leaves the
install deleted; a recorded total of zero reports completion without
touching the archive (and without recreating `bin`). -/
def restore_backup (bin_path : String) (st : LauncherState)
    (backup_name : String) : LauncherState × Option String :=
  match assocGet st.backups backup_name with
  | none => (st, some ("Backup archive " ++ backup_name ++ " not found."))
  | some archiveData =>
    match assocGet st.backups (metaPathOf backup_name) with
    | none =>
      (st, some ("Backup metadata for " ++ backup_name ++ " not found."))
    | some metaData =>
      match metaData with
      | FileData.meta total =>
        if total = 0 then ({ st with binDir := none }, none)
        else
          match archiveData with
          | FileData.archive entries =>
            ({ st with binDir := some (restoreLoop bin_path entries).1 },
             (restoreLoop bin_path entries).2)
          | _ => ({ st with binDir := none }, some "TarError")
      | _ => ({ st with binDir := none }, some "JSONDecodeError")

/-! ## GitHubGitProvider.save_all_changes (github_git.py lines 124-154)

The repository state is the local working copy, the remote branch content,
the list of pushed commits (each recorded as its staged paths) and whether
the `manifests` directory exists.  `origin.pull()` is modelled as the working
copy becoming the remote content; `commit`+`push` appends the staged paths as
one commit and makes the remote equal to the working copy.  File contents
are the index entries or an opaque manifest payload. -/
inductive GitContent where
  | idx (entries : List IndexEntry)
  | mjson (payload : String)
  deriving Repr, DecidableEq

structure RepoState where
  files : List (String × GitContent)
  remote : List (String × GitContent)
  commits : List (List String)
  manifests_dir_exists : Bool
  deriving Repr, DecidableEq

def manifestPathOf (version : String) : String :=
  "manifests/manifest-v" ++ version ++ ".json"

def saveStep (dirEx : Bool)
    (acc : List (String × GitContent) × List String)
    (mu : String × String) :
    List (String × GitContent) × List String :=
  if dirEx then
    (assocSet acc.1 (manifestPathOf mu.1) (GitContent.mjson mu.2),
     acc.2 ++ [manifestPathOf mu.1])
  else acc

def save_all_changes (st : RepoState) (versions_content : List IndexEntry)
    (manifests_to_update : List (String × String)) :
    RepoState × Option (List String) :=
  let files1 := assocSet st.remote "versions.json"
    (GitContent.idx versions_content)
  let step := manifests_to_update.foldl
    (saveStep st.manifests_dir_exists) (files1, ["versions.json"])
  if step.2 = [] then
    ({ files := step.1, remote := st.remote, commits := st.commits,
       manifests_dir_exists := st.manifests_dir_exists }, none)
  else
    ({ files := step.1, remote := step.1,
       commits := st.commits ++ [step.2],
       manifests_dir_exists := st.manifests_dir_exists }, some step.2)

def c8Entry : IndexEntry :=
  { version := "1.0", manifest_urls := [], download_urls := [],
    latest := true, profiler := false }

def c8State : RepoState :=
  { files := [("versions.json", GitContent.idx [c8Entry]),
              ("manifests/manifest-v1.0.json", GitContent.mjson "m")],
    remote := [("versions.json", GitContent.idx [c8Entry]),
               ("manifests/manifest-v1.0.json", GitContent.mjson "m")],
    commits := [],
    manifests_dir_exists := true }

/-! ## Progress reporting (backup.py lines 58-73 and 119-141, network.py lines 150-170)

The sequence of fractions passed to the progress callback, as rationals.
`create_backup` iterates its own file list (denominator = its length) with a
1%-step throttle and a final unconditional `1.0`; `restore_backup` iterates
the tar members against the recorded `total_files` with the same throttle,
returning immediately with a single `1.0` when the recorded count is zero;
`extract_archive` iterates the tar members against `len(manifest.files)`
without throttling, also emitting `1.0` immediately when that count is zero.
`member_count` is the number of archive members actually iterated; the
manifest invariant of the spec makes it equal to the recorded total. -/
def throttleGo (n : ℚ) : Nat → Nat → ℚ → List ℚ
  | _, 0, _ => []
  | i, rem + 1, last =>
    if ((i : ℚ) + 1) / n - last ≥ 1 / 100 then
      (((i : ℚ) + 1) / n) :: throttleGo n (i + 1) rem (((i : ℚ) + 1) / n)
    else throttleGo n (i + 1) rem last

def create_backup_emissions (total_files : Nat) : List ℚ :=
  throttleGo (total_files : ℚ) 0 total_files 0 ++ [1]

def restore_backup_emissions (total_files member_count : Nat) : List ℚ :=
  if total_files = 0 then [1]
  else throttleGo (total_files : ℚ) 0 member_count 0 ++ [1]

def extract_archive_emissions (total_files member_count : Nat) : List ℚ :=
  if total_files = 0 then [1]
  else ((List.range member_count).map
    (fun i : ℕ => ((i : ℚ) + 1) / (total_files : ℚ))) ++ [1]

def goodEmissions (em : List ℚ) : Prop :=
  List.Chain' (· ≤ ·) em ∧ (∀ x ∈ em, 0 ≤ x ∧ x ≤ 1) ∧ em.getLast? = some 1

/-! ## NetworkManager.download_file_with_fallback (network.py lines 44-112, 180-190)

The network is abstracted by an oracle `succeed provider attempt` saying
whether the HTTP attempt with 0-based index `attempt` against `provider`'s
URL completes; the observable behaviour is the sequence of attempts, the
3-second sleeps between retries of one provider, the final removal of the
temp file on total failure, and the returned path. -/
inductive DlEvent where
  | attempt (provider : String) (n : Nat)
  | sleep (seconds : Nat)
  | deleteTemp
  deriving Repr, DecidableEq

/-- Model of `NetworkManager._get_sorted_urls`: `GitHub Git` first when present,
remaining providers in dict-iteration order; otherwise the dict order. -/
def get_sorted_urls (urls : List (String × String)) : List (String × String) :=
  match urls.find? (fun p => p.1 == "GitHub Git") with
  | some q => ("GitHub Git", q.2) :: urls.filter (fun p => !(p.1 == "GitHub Git"))
  | none => urls

/-- The `while attempt < max_retries` retry loop of one provider, run with
1-based attempt numbers in the log events; `remaining` is
`max_retries - attempt`.  A failed attempt sleeps 3 seconds only when another
attempt remains, then the loop breaks to the next provider. -/
def tryLoop (succeed : String → Nat → Bool) (p : String) :
    Nat → Nat → List DlEvent × Bool
  | _, 0 => ([], false)
  | attempt, remaining + 1 =>
    if succeed p attempt then ([DlEvent.attempt p (attempt + 1)], true)
    else if remaining = 0 then ([DlEvent.attempt p (attempt + 1)], false)
    else
      let rest := tryLoop succeed p (attempt + 1) remaining
      (DlEvent.attempt p (attempt + 1) :: DlEvent.sleep 3 :: rest.1, rest.2)

/-- The provider fallback loop; on exhausting all providers the temp file is
removed (`os.remove(destination)`) and `None` is returned. -/
def dlGo (dest : String) (succeed : String → Nat → Bool) :
    List (String × String) → List DlEvent × Option String
  | [] => ([DlEvent.deleteTemp], none)
  | pu :: rest =>
    let t := tryLoop succeed pu.1 0 3
    if t.2 then (t.1, some dest)
    else
      let r := dlGo dest succeed rest
      (t.1 ++ r.1, r.2)

def download_file_with_fallback (dest : String)
    (urls : List (String × String)) (succeed : String → Nat → Bool) :
    List DlEvent × Option String :=
  dlGo dest succeed (get_sorted_urls urls)

/-- Three providers of which exactly one fails its archive upload. -/
def c4Providers : List ProviderUpload :=
  [{ name := "GitHub Releases", archive_result := some "https://gr/a",
     manifest_result := some "https://gr/m" },
   { name := "Catbox", archive_result := none, manifest_result := none },
   { name := "GitHub Git", archive_result := some "https://gg/a",
     manifest_result := some "https://gg/m" }]

/-- C2 counterexample: on an index whose single entry has `latest = false`,
`find_latest_version` returns `none`, not the first entry in index order, so
the claimed first-entry fallback does not exist in this function. -/
theorem C2_counterexample :
    find_latest_version [unlistedVersion] = none ∧
      [unlistedVersion].head? = some unlistedVersion := by
  constructor <;> rfl

/-- C2 (amended): `find_latest_version` returns the first entry whose `latest`
flag is true -- any returned entry is the first flagged one, and conversely
whenever the index splits as unflagged entries followed by a flagged entry,
exactly that entry is returned; when no entry is flagged it returns `none`
(the fallback to the first entry in index order is implemented by the
caller, not here). -/
theorem C2_find_latest_version_first_flagged (vs : List Version) :
    (∀ v, find_latest_version vs = some v →
        v.latest = true ∧ ∃ l r, vs = l ++ v :: r ∧ ∀ u ∈ l, u.latest = false) ∧
      (∀ l v r, vs = l ++ v :: r → v.latest = true →
        (∀ u ∈ l, u.latest = false) → find_latest_version vs = some v) ∧
      ((∀ v ∈ vs, v.latest = false) → find_latest_version vs = none) := by
  have h1 : ∀ v, find_latest_version vs = some v →
      v.latest = true ∧ ∃ l r, vs = l ++ v :: r ∧ ∀ u ∈ l, u.latest = false := by
    induction vs with
    | nil => exact fun v h => by simp [find_latest_version] at h
    | cons a t ih =>
      intro v hv
      by_cases ha : a.latest
      · have : v = a := by
          simp [find_latest_version, List.find?, ha] at hv
          exact hv.symm
        subst this
        exact ⟨ha, [], t, rfl, by simp⟩
      · have ht : find_latest_version t = some v := by
          simpa [find_latest_version, List.find?, ha] using hv
        obtain ⟨hlat, l, r, hsplit, hl⟩ := ih v ht
        refine ⟨hlat, a :: l, r, by simp [hsplit], ?_⟩
        intro u hu
        rcases List.mem_cons.mp hu with h | h
        · subst h; simpa using ha
        · exact hl u h
  have h2 : ∀ l v r, vs = l ++ v :: r → v.latest = true →
      (∀ u ∈ l, u.latest = false) → find_latest_version vs = some v := by
    clear h1
    induction vs with
    | nil =>
      intro l v r hsplit _ _
      exact absurd hsplit (by simp)
    | cons a t ih =>
      intro l v r hsplit hv hl
      cases l with
      | nil =>
        simp only [List.nil_append] at hsplit
        obtain ⟨rfl, rfl⟩ := List.cons.inj hsplit
        simp [find_latest_version, List.find?, hv]
      | cons b l2 =>
        simp only [List.cons_append] at hsplit
        obtain ⟨rfl, rfl⟩ := List.cons.inj hsplit
        have hb : a.latest = false := hl a (List.mem_cons_self _ _)
        have hstep : find_latest_version (a :: (l2 ++ v :: r)) =
            find_latest_version (l2 ++ v :: r) := by
          unfold find_latest_version
          rw [List.find?_cons_of_neg _ (by simp [hb])]
        rw [hstep]
        exact ih l2 v r rfl hv (fun u hu => hl u (List.mem_cons_of_mem _ hu))
  have h3 : (∀ v ∈ vs, v.latest = false) → find_latest_version vs = none := by
    clear h1 h2
    induction vs with
    | nil => exact fun _ => rfl
    | cons a t ih =>
      intro hall
      have ha : a.latest = false := hall a (by simp)
      have ht := ih (fun v hv => hall v (by simp [hv]))
      simpa [find_latest_version, List.find?, ha] using ht
  exact ⟨h1, h2, h3⟩

/-- C3: the index-update stage keeps at most one non-variant entry flagged
`latest`; a non-profiler release strips the flag from every pre-existing entry
and is prepended as exactly the one flagged entry; a profiler release is
prepended without the flag. -/
theorem C3_update_index_single_latest (current : List IndexEntry)
    (version : String) (mu du : List (String × String)) (profiler : Bool)
    (h : latestNonVariantCount current ≤ 1) :
    latestNonVariantCount (update_version_index current version mu du profiler) ≤ 1 ∧
      (profiler = false →
        (update_version_index current version mu du profiler).filter
            (fun e => e.latest) =
          [{ version := version, manifest_urls := mu, download_urls := du,
             profiler := false, latest := true }] ∧
          ∀ e ∈ (update_version_index current version mu du profiler).tail,
            e.latest = false) ∧
      (profiler = true →
        (update_version_index current version mu du profiler).head? =
          some { version := version, manifest_urls := mu, download_urls := du,
                 profiler := true, latest := false }) := by
  cases profiler with
  | false =>
    refine ⟨?_, fun _ => ⟨?_, ?_⟩, fun hc => by simp at hc⟩
    · simp only [update_version_index, latestNonVariantCount, List.filter_cons]
      have : (current.map (fun e => { e with latest := false })).filter
          (fun e => !e.profiler && e.latest) = [] := by
        apply List.filter_eq_nil_iff.mpr
        intro e he
        obtain ⟨a, _, rfl⟩ := List.mem_map.mp he
        simp
      simp [this]
    · simp only [update_version_index, List.filter_cons]
      have : (current.map (fun e => { e with latest := false })).filter
          (fun e => e.latest) = [] := by
        apply List.filter_eq_nil_iff.mpr
        intro e he
        obtain ⟨a, _, rfl⟩ := List.mem_map.mp he
        simp
      simp [this]
    · intro e he
      simp only [update_version_index, List.tail_cons] at he
      obtain ⟨a, _, rfl⟩ := List.mem_map.mp (by simpa using he)
      rfl
  | true =>
    refine ⟨?_, fun hc => by simp at hc, fun _ => rfl⟩
    simp only [update_version_index, latestNonVariantCount, List.filter_cons]
    simpa [latestNonVariantCount] using h

theorem strEndsWith_archive (v : String) :
    strEndsWith ("AOEngine-v" ++ v ++ ".tar.zst") ".tar.zst" = true := by
  unfold strEndsWith
  rw [String.data_append, List.isSuffixOf_iff_suffix]
  exact List.suffix_append _ _

theorem strEndsWith_manifest_not_archive (v : String) :
    strEndsWith ("manifest-v" ++ v ++ ".json") ".tar.zst" = false := by
  unfold strEndsWith
  rw [String.data_append, Bool.eq_false_iff]
  intro hne
  have h1 : ".tar.zst".data <:+ ("manifest-v" ++ v).data ++ ".json".data := by
    rw [List.isSuffixOf_iff_suffix] at hne
    exact hne
  have h2 : ".json".data <:+ ("manifest-v" ++ v).data ++ ".json".data :=
    List.suffix_append _ _
  rcases List.suffix_or_suffix_of_suffix h1 h2 with h | h
  · revert h; decide
  · revert h; decide

theorem dictInsert_of_not_mem (d : List (String × String)) (k v : String)
    (h : ¬ k ∈ d.map Prod.fst) : dictInsert d k v = d ++ [(k, v)] := by
  have hany : d.any (fun p => p.1 == k) = false := by
    rw [List.any_eq_false]
    intro p hp
    simp only [beq_iff_eq]
    exact fun hpk => h (List.mem_map.mpr ⟨p, hp, hpk⟩)
  simp [dictInsert, hany]

/-- Collecting a completed manifest upload never touches `download_urls`. -/
theorem collectStep_manifest_fst
    (X : List (String × String) × List (String × String)) (n u v : String) :
    (collectStep X (n, "manifest-v" ++ v ++ ".json", some u)).1 = X.1 := by
  simp only [collectStep, strEndsWith_manifest_not_archive]
  split
  · next h => simp at h
  · split
    · split <;> rfl
    · rfl

/-- After one provider's two results, `download_urls` grows by exactly that
provider's successful archive upload and `manifest_urls` leaves
`download_urls` untouched. -/
theorem parallel_upload_keys (v : String) (ps : List ProviderUpload)
    (acc : List (String × String) × List (String × String))
    (hnodup : (ps.map (fun p => p.name)).Nodup)
    (hdisj : ∀ p ∈ ps, ¬ p.name ∈ acc.1.map Prod.fst) :
    ((uploadResults v ps).foldl collectStep acc).1.map Prod.fst =
      acc.1.map Prod.fst ++
        ((ps.filter (fun p => p.archive_result.isSome)).map (fun p => p.name)) := by
  induction ps generalizing acc with
  | nil => simp [uploadResults]
  | cons p ps ih =>
    rw [List.map_cons, List.nodup_cons] at hnodup
    have hpnot : ∀ q ∈ ps, q.name ≠ p.name := fun q hq hqe =>
      hnodup.1 (hqe ▸ List.mem_map.mpr ⟨q, hq, rfl⟩)
    rw [show uploadResults v (p :: ps) =
        (p.name, "AOEngine-v" ++ v ++ ".tar.zst", p.archive_result) ::
          (p.name, "manifest-v" ++ v ++ ".json", p.manifest_result) ::
          uploadResults v ps from rfl,
      List.foldl_cons, List.foldl_cons]
    cases harch : p.archive_result with
    | none =>
      have hacc1 : (collectStep (collectStep acc
          (p.name, "AOEngine-v" ++ v ++ ".tar.zst", none))
          (p.name, "manifest-v" ++ v ++ ".json", p.manifest_result)).1 = acc.1 := by
        cases hman : p.manifest_result with
        | none => rfl
        | some murl => exact collectStep_manifest_fst acc p.name murl v
      rw [ih _ hnodup.2
        (fun q hq hmem => hdisj q (List.mem_cons_of_mem _ hq) (by rwa [hacc1] at hmem)),
        hacc1]
      simp [List.filter_cons, harch]
    | some aurl =>
      have hins : (collectStep acc
          (p.name, "AOEngine-v" ++ v ++ ".tar.zst", some aurl)).1 =
          acc.1 ++ [(p.name, aurl)] := by
        have hni := dictInsert_of_not_mem acc.1 p.name aurl
          (hdisj p (List.mem_cons_self _ _))
        simp [collectStep, strEndsWith_archive, hni]
      have hacc1 : (collectStep (collectStep acc
          (p.name, "AOEngine-v" ++ v ++ ".tar.zst", some aurl))
          (p.name, "manifest-v" ++ v ++ ".json", p.manifest_result)).1 =
          acc.1 ++ [(p.name, aurl)] := by
        cases hman : p.manifest_result with
        | none => exact hins
        | some murl => rw [collectStep_manifest_fst]; exact hins
      rw [ih _ hnodup.2
        (fun q hq hmem => by
          rw [hacc1] at hmem
          simp only [List.map_append, List.mem_append] at hmem
          rcases hmem with hmem | hmem
          · exact hdisj q (List.mem_cons_of_mem _ hq) hmem
          · exact hpnot q hq (by simpa using hmem)),
        hacc1]
      simp [List.filter_cons, harch]

/-- Lengths of a filter and its complement add up. -/
theorem length_filter_add_length_filter_not {α : Type} (l : List α)
    (p : α → Bool) :
    (l.filter p).length + (l.filter (fun x => !p x)).length = l.length := by
  induction l with
  | nil => rfl
  | cons a t ih =>
    by_cases ha : p a <;> simp [List.filter_cons, ha, ← ih] <;> omega

/-- C4: with distinct provider names, `download_urls` has one entry per
provider whose archive upload succeeded (`|download_urls| + k = N` for `k`
archive failures out of `N` providers); the stage aborts the workflow with
the fatal error, publishing no index entry, exactly when no provider
produced an archive URL. -/
theorem C4_partial_upload_tolerance (version version_str : String)
    (providers : List ProviderUpload)
    (ipn curl : String) (current : List IndexEntry) (profiler : Bool)
    (hnodup : (providers.map (fun p => p.name)).Nodup) :
    (parallel_upload version_str providers).1.length +
        (providers.filter (fun p => p.archive_result.isNone)).length =
      providers.length ∧
      ((∃ p ∈ providers, p.archive_result.isSome) →
        ∃ out, run_publish version version_str providers ipn curl current
            profiler = Except.ok out) ∧
      ((∀ p ∈ providers, p.archive_result = none) →
        run_publish version version_str providers ipn curl current profiler =
          Except.error "Failed to upload archive to any provider. Aborting.") := by
  have hkeys := parallel_upload_keys version_str providers ([], [])
    hnodup (by simp)
  have hlen : (parallel_upload version_str providers).1.length =
      (providers.filter (fun p => p.archive_result.isSome)).length := by
    have := congrArg List.length hkeys
    simpa [parallel_upload] using this
  refine ⟨?_, ?_, ?_⟩
  · rw [hlen]
    have heq : (fun (p : ProviderUpload) => !p.archive_result.isSome) =
        fun p => p.archive_result.isNone := by
      funext p; cases p.archive_result <;> rfl
    have := length_filter_add_length_filter_not providers
      (fun p => p.archive_result.isSome)
    rwa [heq] at this
  · rintro ⟨p, hp, hps⟩
    have hne : (parallel_upload version_str providers).1 ≠ [] := by
      intro hemp
      have : (providers.filter (fun p => p.archive_result.isSome)) ≠ [] := by
        intro hf
        have := List.filter_eq_nil_iff.mp hf p hp
        simp [hps] at this
      have : (providers.filter (fun p => p.archive_result.isSome)).length = 0 := by
        rw [← hlen, hemp]; rfl
      exact absurd (List.length_eq_zero.mp this) (by assumption)
    refine ⟨update_version_index current version
      (dictInsert (parallel_upload version_str providers).2 ipn curl)
      (parallel_upload version_str providers).1 profiler, ?_⟩
    unfold run_publish
    rw [if_neg]
    simpa [List.isEmpty_iff] using hne
  · intro hall
    have hemp : (parallel_upload version_str providers).1 = [] := by
      have hf : providers.filter (fun p => p.archive_result.isSome) = [] := by
        apply List.filter_eq_nil_iff.mpr
        intro p hp
        simp [hall p hp]
      have := hlen
      rw [hf] at this
      exact List.length_eq_zero.mp (by simpa using this)
    unfold run_publish
    rw [if_pos (by simpa [List.isEmpty_iff] using hemp)]

/-- C6: `verify_sha256` returns true exactly when the file exists and its
freshly computed SHA-256 hex digest equals the expected string, and returns
`false` (it does not raise) when the file does not exist. -/
theorem C6_verify_sha256 (fs : String → Option (List Nat))
    (path expected : String) :
    (verify_sha256 fs path expected = true ↔
        ∃ bytes, fs path = some bytes ∧ sha256Hexdigest bytes = expected) ∧
      (fs path = none → verify_sha256 fs path expected = false) := by
  cases h : fs path with
  | none => simp [verify_sha256, h]
  | some bytes => simp [verify_sha256, h]

/-- C6 witness: the theorem applied to a one-file filesystem and a missing
path. -/
theorem C6_verify_sha256_witness :
    (verify_sha256 c6Fs "g" "x" = true ↔
        ∃ bytes, c6Fs "g" = some bytes ∧ sha256Hexdigest bytes = "x") ∧
      (c6Fs "g" = none → verify_sha256 c6Fs "g" "x" = false) :=
  C6_verify_sha256 c6Fs "g" "x"

/-- C1 counterexample: the Acquisition Manager's extraction loop applies no
check at all, so the entry `../../evil` is written to `/evil`, outside the
root, with no security error raised; and even the Backup Manager's check
passes the escaping entry `../binx/evil` (the raw string-prefix test accepts
the sibling directory `/game/binx`), which is then extracted with no error. -/
theorem C1_counterexample :
    extract_archive_writes "/game/bin" ["../../evil"] = ["/evil"] ∧
      insideRoot "/game/bin" "/evil" = false ∧
      restore_member_check "/game/bin" "../binx/evil" = true ∧
      (restoreLoop "/game/bin" [("../binx/evil", [0])]).2 = none ∧
      insideRoot "/game/bin"
        (normpath (joinPath "/game/bin" "../binx/evil")) = false := by
  decide

/-- C1 (amended): only the Backup Manager's restore checks entries, with the
raw normalized-string-prefix test, raising an `IOError` (not a distinct
security error kind) at the first entry failing that test and writing no
entry from it onward, so every written entry passes the test (entries that
escape to a sibling directory extending the root's name still pass); the
Acquisition Manager's extract applies no check and writes every entry at its
resolved destination. -/
theorem C1_traversal_check_behaviour (bin dest : String)
    (entries : List (String × List Nat)) (members : List String) :
    ((restoreLoop bin entries).2 = none ↔
        ∀ e ∈ entries, restore_member_check bin e.1 = true) ∧
      ((restoreLoop bin entries).2 = none →
        (restoreLoop bin entries).1 = entries) ∧
      (∀ e ∈ (restoreLoop bin entries).1,
        restore_member_check bin e.1 = true) ∧
      extract_archive_writes dest members =
        members.map (fun m => normpath (joinPath dest m)) := by
  have h1 : (restoreLoop bin entries).2 = none ↔
      ∀ e ∈ entries, restore_member_check bin e.1 = true := by
    induction entries with
    | nil => simp [restoreLoop]
    | cons e rest ih =>
      rw [restoreLoop]
      by_cases hc : restore_member_check bin e.1
      · simp only [hc, if_true]
        constructor
        · intro hnone x hx
          rcases List.mem_cons.mp hx with rfl | hx
          · exact hc
          · exact ih.mp hnone x hx
        · intro hall
          exact ih.mpr (fun x hx => hall x (List.mem_cons_of_mem _ hx))
      · simp only [hc, if_false]
        constructor
        · intro hnone; cases hnone
        · intro hall
          exact absurd (hall e (List.mem_cons_self _ _)) (by simpa using hc)
  have h2 : (restoreLoop bin entries).2 = none →
      (restoreLoop bin entries).1 = entries := by
    clear h1
    induction entries with
    | nil => simp [restoreLoop]
    | cons e rest ih =>
      intro hnone
      rw [restoreLoop] at hnone ⊢
      by_cases hc : restore_member_check bin e.1
      · simp only [hc, if_true] at hnone ⊢
        rw [ih hnone]
      · simp only [hc, if_false] at hnone
        cases hnone
  have h3 : ∀ e ∈ (restoreLoop bin entries).1,
      restore_member_check bin e.1 = true := by
    clear h1 h2
    induction entries with
    | nil => simp [restoreLoop]
    | cons e rest ih =>
      intro x hx
      rw [restoreLoop] at hx
      by_cases hc : restore_member_check bin e.1
      · simp only [hc, if_true] at hx
        rcases List.mem_cons.mp hx with rfl | hx
        · exact hc
        · exact ih x hx
      · simp only [hc, if_false] at hx
        simp at hx
  exact ⟨h1, h2, h3, rfl⟩

theorem assocGet_assocSet_self {β : Type} (d : List (String × β))
    (k : String) (v : β) : assocGet (assocSet d k v) k = some v := by
  induction d with
  | nil => simp [assocSet, assocGet]
  | cons p rest ih =>
    by_cases hp : p.1 = k
    · simp [assocSet, hp, assocGet]
    · simp only [assocSet, if_neg hp, assocGet]
      rw [List.find?_cons_of_neg _ (by simpa using hp)]
      exact ih

theorem assocGet_assocSet_ne {β : Type} (d : List (String × β))
    (k k' : String) (v : β) (h : k' ≠ k) :
    assocGet (assocSet d k v) k' = assocGet d k' := by
  induction d with
  | nil =>
    show assocGet [(k, v)] k' = assocGet [] k'
    unfold assocGet
    rw [List.find?_cons_of_neg _ (by simpa using Ne.symm h)]
  | cons p rest ih =>
    by_cases hp : p.1 = k
    · simp only [assocSet, if_pos hp]
      unfold assocGet
      rw [List.find?_cons_of_neg _ (by simpa using Ne.symm h),
        List.find?_cons_of_neg _ (by simp [hp]; exact Ne.symm h)]
    · simp only [assocSet, if_neg hp]
      by_cases hq : p.1 = k'
      · unfold assocGet
        rw [List.find?_cons_of_pos _ (by simpa using hq),
          List.find?_cons_of_pos _ (by simpa using hq)]
      · unfold assocGet
        rw [List.find?_cons_of_neg _ (by simpa using hq),
          List.find?_cons_of_neg _ (by simpa using hq)]
        exact ih

theorem create_backup_initial_noop (dir : List (String × FileData))
    (ts : String) (bf : List (String × List Nat))
    (hs : (assocGet dir "initial_vanilla_files.tar.zst").isSome) :
    create_backup dir "initial" ts bf = dir := by
  unfold create_backup
  rw [show backupName "initial" ts ++ ".tar.zst" =
    "initial_vanilla_files.tar.zst" from rfl]
  rw [if_pos ⟨rfl, hs⟩]

/-- C9: creating the `initial` backup when none exists writes exactly one
archive+metadata pair, and a second `initial` call (any timestamp, any file
list) is a no-op leaving the backup root, hence the first archive's entries
and its sidecar, untouched. -/
theorem C9_initial_backup_idempotent (dir : List (String × FileData))
    (ts1 ts2 : String) (bf1 bf2 : List (String × List Nat))
    (h : assocGet dir "initial_vanilla_files.tar.zst" = none) :
    assocGet (create_backup dir "initial" ts1 bf1)
        "initial_vanilla_files.tar.zst" = some (FileData.archive bf1) ∧
      assocGet (create_backup dir "initial" ts1 bf1)
        "initial_vanilla_files.meta.json" = some (FileData.meta bf1.length) ∧
      create_backup (create_backup dir "initial" ts1 bf1) "initial" ts2 bf2 =
        create_backup dir "initial" ts1 bf1 := by
  have hne : "initial_vanilla_files.tar.zst" ≠
      "initial_vanilla_files.meta.json" := by decide
  have hd1 : create_backup dir "initial" ts1 bf1 =
      assocSet (assocSet dir "initial_vanilla_files.meta.json"
          (FileData.meta bf1.length))
        "initial_vanilla_files.tar.zst" (FileData.archive bf1) := by
    unfold create_backup
    rw [show backupName "initial" ts1 ++ ".tar.zst" =
      "initial_vanilla_files.tar.zst" from rfl]
    rw [show backupName "initial" ts1 ++ ".meta.json" =
      "initial_vanilla_files.meta.json" from rfl]
    rw [if_neg]
    simp [h]
  have hget1 : assocGet (create_backup dir "initial" ts1 bf1)
      "initial_vanilla_files.tar.zst" = some (FileData.archive bf1) := by
    rw [hd1]
    exact assocGet_assocSet_self _ _ _
  refine ⟨hget1, ?_, ?_⟩
  · rw [hd1, assocGet_assocSet_ne _ _ _ _ (Ne.symm hne)]
    exact assocGet_assocSet_self _ _ _
  · exact create_backup_initial_noop _ ts2 bf2 (by rw [hget1]; rfl)

/-- C10: when both the archive and its sidecar exist but the sidecar is not
valid JSON, `restore_backup` raises (`json.load` fails) after the install
directory has already been removed, leaving no `bin` directory and nothing
restored. -/
theorem C10_restore_deletes_bin_before_parsing (bin_path backup_name : String)
    (st : LauncherState) (ad : FileData)
    (ha : assocGet st.backups backup_name = some ad)
    (hm : assocGet st.backups (metaPathOf backup_name) =
      some FileData.invalidJson) :
    restore_backup bin_path st backup_name =
      ({ st with binDir := none }, some "JSONDecodeError") := by
  unfold restore_backup
  rw [ha, hm]

/-- C10 witness: a concrete state with a valid archive and an invalid-JSON
sidecar. -/
theorem C10_restore_deletes_bin_before_parsing_witness :
    restore_backup "/game/bin"
        { binDir := some [("old.dll", [0])],
          backups := [("b.tar.zst", FileData.archive [("f", [1])]),
                      ("b.meta.json", FileData.invalidJson)] }
        "b.tar.zst" =
      ({ binDir := none,
         backups := [("b.tar.zst", FileData.archive [("f", [1])]),
                     ("b.meta.json", FileData.invalidJson)] },
       some "JSONDecodeError") :=
  C10_restore_deletes_bin_before_parsing "/game/bin" "b.tar.zst"
    { binDir := some [("old.dll", [0])],
      backups := [("b.tar.zst", FileData.archive [("f", [1])]),
                  ("b.meta.json", FileData.invalidJson)] }
    (FileData.archive [("f", [1])]) (by decide) (by decide)

/-- C9 witness: creating the initial backup twice over an empty backup root,
the second time with different inputs. -/
theorem C9_initial_backup_idempotent_witness :
    assocGet (create_backup [] "initial" "t1" [("a.dll", [1])])
        "initial_vanilla_files.tar.zst" =
      some (FileData.archive [("a.dll", [1])]) ∧
      assocGet (create_backup [] "initial" "t1" [("a.dll", [1])])
        "initial_vanilla_files.meta.json" =
      some (FileData.meta [("a.dll", [1])].length) ∧
      create_backup (create_backup [] "initial" "t1" [("a.dll", [1])])
          "initial" "t2" [] =
        create_backup [] "initial" "t1" [("a.dll", [1])] :=
  C9_initial_backup_idempotent [] "t1" "t2" [("a.dll", [1])] [] rfl

theorem manifestPathOf_ne_index (v : String) :
    manifestPathOf v ≠ "versions.json" := by
  intro h
  have hd := congrArg (fun s => s.data.head?) h
  simp only [manifestPathOf, String.data_append] at hd
  simp at hd

theorem manifestPathOf_injective (v v' : String)
    (h : manifestPathOf v = manifestPathOf v') : v = v' := by
  have hd := congrArg String.data h
  simp only [manifestPathOf, String.data_append] at hd
  have h1 := List.append_cancel_left
    (List.append_cancel_right hd)
  exact String.ext h1

theorem saveFold_paths (dirEx : Bool) (ms : List (String × String)) :
    ∀ acc : List (String × GitContent) × List String,
      (ms.foldl (saveStep dirEx) acc).2 =
        acc.2 ++ (if dirEx then ms.map (fun mu => manifestPathOf mu.1)
          else []) := by
  induction ms with
  | nil => intro acc; simp
  | cons m rest ih =>
    intro acc
    rw [List.foldl_cons, ih]
    cases dirEx with
    | false => simp [saveStep]
    | true => simp [saveStep]

theorem saveFold_get_preserved (dirEx : Bool) (ms : List (String × String))
    (k : String) (hk : ∀ mu ∈ ms, manifestPathOf mu.1 ≠ k) :
    ∀ acc : List (String × GitContent) × List String,
      assocGet (ms.foldl (saveStep dirEx) acc).1 k = assocGet acc.1 k := by
  induction ms with
  | nil => intro acc; rfl
  | cons m rest ih =>
    intro acc
    rw [List.foldl_cons,
      ih (fun mu hmu => hk mu (List.mem_cons_of_mem _ hmu))]
    cases dirEx with
    | false => rfl
    | true =>
      simp only [saveStep, if_pos rfl]
      exact assocGet_assocSet_ne _ _ _ _ (hk m (List.mem_cons_self _ _)).symm

theorem saveFold_get_mem (ms : List (String × String))
    (hnodup : (ms.map Prod.fst).Nodup) :
    ∀ acc : List (String × GitContent) × List String, ∀ mu ∈ ms,
      assocGet (ms.foldl (saveStep true) acc).1 (manifestPathOf mu.1) =
        some (GitContent.mjson mu.2) := by
  induction ms with
  | nil => intro acc mu h; simp at h
  | cons m rest ih =>
    intro acc mu hmu
    rw [List.map_cons, List.nodup_cons] at hnodup
    rcases List.mem_cons.mp hmu with rfl | hmu
    · rw [List.foldl_cons]
      rw [saveFold_get_preserved true rest _
        (fun mu' hmu' heq => hnodup.1
          (List.mem_map.mpr ⟨mu', hmu', manifestPathOf_injective _ _ heq⟩))]
      simp only [saveStep, if_pos rfl]
      exact assocGet_assocSet_self _ _ _
    · rw [List.foldl_cons]
      exact ih hnodup.2 _ mu hmu

/-- C8 (amended): `save_all_changes` pulls first (the outcome is independent
of the pre-call working copy), always writes and stages `versions.json`,
writes and stages every manifest in the update map whenever the manifests
directory exists, without comparing against previous content, and always
commits and pushes the staged paths as one commit -- the staged list always
contains the index path, so the no-change branch is unreachable and a commit
is created even when nothing changed. -/
theorem C8_save_all_changes_behaviour (st : RepoState)
    (versions : List IndexEntry) (manifests : List (String × String))
    (hnodup : (manifests.map Prod.fst).Nodup) :
    (∀ f, save_all_changes { st with files := f } versions manifests =
        save_all_changes st versions manifests) ∧
      (save_all_changes st versions manifests).2 =
        some ("versions.json" ::
          (if st.manifests_dir_exists then
            manifests.map (fun mu => manifestPathOf mu.1) else [])) ∧
      (save_all_changes st versions manifests).1.commits =
        st.commits ++ ["versions.json" ::
          (if st.manifests_dir_exists then
            manifests.map (fun mu => manifestPathOf mu.1) else [])] ∧
      assocGet (save_all_changes st versions manifests).1.files
          "versions.json" = some (GitContent.idx versions) ∧
      (st.manifests_dir_exists = true → ∀ mu ∈ manifests,
        assocGet (save_all_changes st versions manifests).1.files
            (manifestPathOf mu.1) = some (GitContent.mjson mu.2)) := by
  have hpaths := saveFold_paths st.manifests_dir_exists manifests
    (assocSet st.remote "versions.json" (GitContent.idx versions),
     ["versions.json"])
  have hcons : (["versions.json"] : List String) ++
      (if st.manifests_dir_exists then
        manifests.map (fun mu => manifestPathOf mu.1) else []) =
      "versions.json" ::
        (if st.manifests_dir_exists then
          manifests.map (fun mu => manifestPathOf mu.1) else []) := rfl
  have hne : (manifests.foldl (saveStep st.manifests_dir_exists)
      (assocSet st.remote "versions.json" (GitContent.idx versions),
       ["versions.json"])).2 ≠ [] := by
    rw [hpaths, hcons]
    exact List.cons_ne_nil _ _
  have heq : save_all_changes st versions manifests =
      ({ files := (manifests.foldl (saveStep st.manifests_dir_exists)
            (assocSet st.remote "versions.json" (GitContent.idx versions),
             ["versions.json"])).1,
         remote := (manifests.foldl (saveStep st.manifests_dir_exists)
            (assocSet st.remote "versions.json" (GitContent.idx versions),
             ["versions.json"])).1,
         commits := st.commits ++ [(manifests.foldl
            (saveStep st.manifests_dir_exists)
            (assocSet st.remote "versions.json" (GitContent.idx versions),
             ["versions.json"])).2],
         manifests_dir_exists := st.manifests_dir_exists },
       some (manifests.foldl (saveStep st.manifests_dir_exists)
          (assocSet st.remote "versions.json" (GitContent.idx versions),
           ["versions.json"])).2) := by
    unfold save_all_changes
    rw [if_neg hne]
  refine ⟨fun f => rfl, ?_, ?_, ?_, ?_⟩
  · rw [heq, hpaths, hcons]
  · rw [heq, hpaths, hcons]
  · rw [heq]
    rw [saveFold_get_preserved st.manifests_dir_exists manifests
      "versions.json" (fun mu _ => manifestPathOf_ne_index mu.1) _]
    exact assocGet_assocSet_self _ _ _
  · intro hdir mu hmu
    rw [heq]
    rw [show st.manifests_dir_exists = true from hdir]
    exact saveFold_get_mem manifests hnodup _ mu hmu

/-- C8 counterexample: with the working copy and remote already holding
exactly the content to be saved (so nothing changes), `save_all_changes`
still stages `versions.json` and creates a commit; and a manifest identical
to its on-disk content is still written and staged. -/
theorem C8_counterexample :
    (save_all_changes c8State [c8Entry] []).1.files = c8State.files ∧
      (save_all_changes c8State [c8Entry] []).2 = some ["versions.json"] ∧
      (save_all_changes c8State [c8Entry] []).1.commits =
        [["versions.json"]] ∧
      (save_all_changes c8State [c8Entry] [("1.0", "m")]).2 =
        some ["versions.json", "manifests/manifest-v1.0.json"] := by
  decide

/-- C8 witness: the amended theorem applied to the concrete repository
state. -/
theorem C8_save_all_changes_behaviour_witness :
    (∀ f, save_all_changes { c8State with files := f } [c8Entry]
          [("1.0", "m")] =
        save_all_changes c8State [c8Entry] [("1.0", "m")]) ∧
      (save_all_changes c8State [c8Entry] [("1.0", "m")]).2 =
        some ("versions.json" ::
          (if c8State.manifests_dir_exists then
            [("1.0", "m")].map (fun mu => manifestPathOf mu.1) else [])) ∧
      (save_all_changes c8State [c8Entry] [("1.0", "m")]).1.commits =
        c8State.commits ++ ["versions.json" ::
          (if c8State.manifests_dir_exists then
            [("1.0", "m")].map (fun mu => manifestPathOf mu.1) else [])] ∧
      assocGet (save_all_changes c8State [c8Entry] [("1.0", "m")]).1.files
          "versions.json" = some (GitContent.idx [c8Entry]) ∧
      (c8State.manifests_dir_exists = true → ∀ mu ∈ [("1.0", "m")],
        assocGet (save_all_changes c8State [c8Entry] [("1.0", "m")]).1.files
            (manifestPathOf mu.1) = some (GitContent.mjson mu.2)) :=
  C8_save_all_changes_behaviour c8State [c8Entry] [("1.0", "m")] (by decide)

theorem throttleGo_mem_bounds (n : ℚ) (hn : 0 < n) :
    ∀ (rem i : Nat) (last : ℚ), ((i : ℚ) + rem) ≤ n →
      ∀ x ∈ throttleGo n i rem last, last + 1 / 100 ≤ x ∧ x ≤ 1 := by
  intro rem
  induction rem with
  | zero => intro i last _ x hx; simp [throttleGo] at hx
  | succ rem ih =>
    intro i last hle x hx
    simp only [throttleGo] at hx
    have hle1 : ((i : ℚ) + 1) ≤ n := by push_cast at hle; linarith
    have hle2 : (((i : Nat) + 1 : Nat) : ℚ) + rem ≤ n := by push_cast at hle ⊢; linarith
    by_cases hc : ((i : ℚ) + 1) / n - last ≥ 1 / 100
    · rw [if_pos hc] at hx
      rcases List.mem_cons.mp hx with rfl | hx
      · constructor
        · linarith
        · rw [div_le_one hn]; exact hle1
      · have := ih (i + 1) (((i : ℚ) + 1) / n) hle2 x hx
        constructor
        · linarith [this.1, hc]
        · exact this.2
    · rw [if_neg hc] at hx
      exact ih (i + 1) last hle2 x hx

theorem throttleGo_chain (n : ℚ) (hn : 0 < n) :
    ∀ (rem i : Nat) (last : ℚ), ((i : ℚ) + rem) ≤ n →
      List.Chain' (· ≤ ·) (throttleGo n i rem last) := by
  intro rem
  induction rem with
  | zero => intro i last _; simp [throttleGo]
  | succ rem ih =>
    intro i last hle
    have hle2 : (((i : Nat) + 1 : Nat) : ℚ) + rem ≤ n := by push_cast at hle ⊢; linarith
    simp only [throttleGo]
    by_cases hc : ((i : ℚ) + 1) / n - last ≥ 1 / 100
    · rw [if_pos hc]
      apply List.chain'_cons'.mpr
      refine ⟨?_, ih (i + 1) _ hle2⟩
      intro y hy
      have hmem : y ∈ throttleGo n (i + 1) rem (((i : ℚ) + 1) / n) :=
        List.mem_of_mem_head? hy
      have := (throttleGo_mem_bounds n hn rem (i + 1) _ hle2 y hmem).1
      linarith
    · rw [if_neg hc]
      exact ih (i + 1) last hle2

theorem goodEmissions_append_one (xs : List ℚ)
    (hchain : List.Chain' (· ≤ ·) xs)
    (hbound : ∀ x ∈ xs, 0 ≤ x ∧ x ≤ 1) :
    goodEmissions (xs ++ [1]) := by
  refine ⟨?_, ?_, ?_⟩
  · apply List.Chain'.append hchain (List.chain'_singleton 1)
    intro x hx y hy
    have hx1 : x ∈ xs := List.mem_of_mem_getLast? hx
    have hy1 : 1 = y := by simpa using hy
    rw [← hy1]
    exact (hbound x hx1).2
  · intro x hx
    rcases List.mem_append.mp hx with h | h
    · exact hbound x h
    · have : x = 1 := by simpa using h
      rw [this]; norm_num
  · exact List.getLast?_concat _

theorem chain_map_range_div (n : ℚ) (hn : 0 < n) (m : Nat) :
    List.Chain' (· ≤ ·)
      ((List.range m).map (fun i : ℕ => ((i : ℚ) + 1) / n)) := by
  rw [List.chain'_iff_pairwise]
  have hp : List.Pairwise
      (fun a b : ℕ => ((a : ℚ) + 1) / n ≤ ((b : ℚ) + 1) / n)
      (List.range m) := by
    apply List.Pairwise.imp ?_ (List.pairwise_lt_range m)
    intro a b hab
    have h1 : ((a : ℚ) + 1) ≤ (b : ℚ) + 1 := by
      have : (a : ℚ) ≤ (b : ℚ) := by exact_mod_cast hab.le
      linarith
    exact div_le_div_of_nonneg_right h1 hn.le
  exact hp.map (fun i : ℕ => ((i : ℚ) + 1) / n) (fun a b h => h)

theorem goodEmissions_one : goodEmissions [1] := by
  refine ⟨List.chain'_singleton 1, ?_, rfl⟩
  intro x hx
  have : x = 1 := by simpa using hx
  rw [this]; norm_num

/-- C7 (amended): for each progress-reporting operation with defined total
N (equal to the member count actually iterated), the emitted sequence is
non-decreasing, lies in [0,1], and ends with a final emission of exactly
1.0 on success; when N = 0 exactly one emission of 1.0 is made (extraction
and restore return at that point, while backup creation still writes the
sidecar and an empty archive before its single emission). -/
theorem C7_progress_monotone (n m : Nat) (hm : m = n) :
    (goodEmissions (create_backup_emissions n) ∧
        (n = 0 → create_backup_emissions n = [1])) ∧
      (goodEmissions (restore_backup_emissions n m) ∧
        (n = 0 → restore_backup_emissions n m = [1])) ∧
      (goodEmissions (extract_archive_emissions n m) ∧
        (n = 0 → extract_archive_emissions n m = [1])) := by
  subst hm
  rcases Nat.eq_zero_or_pos m with hn | hn
  · subst hn
    exact ⟨⟨goodEmissions_one, fun _ => rfl⟩,
      ⟨goodEmissions_one, fun _ => rfl⟩,
      ⟨goodEmissions_one, fun _ => rfl⟩⟩
  · have hnq : (0 : ℚ) < (m : ℚ) := by exact_mod_cast hn
    have hle : ((0 : ℚ) + (m : Nat)) ≤ (m : ℚ) := by simp
    have hb := throttleGo_mem_bounds (m : ℚ) hnq m 0 0 hle
    have hc := throttleGo_chain (m : ℚ) hnq m 0 0 hle
    have hgood : goodEmissions (throttleGo (m : ℚ) 0 m 0 ++ [1]) :=
      goodEmissions_append_one _ hc
        (fun x hx => ⟨by linarith [(hb x hx).1], (hb x hx).2⟩)
    have hne := Nat.pos_iff_ne_zero.mp hn
    refine ⟨⟨hgood, fun h0 => absurd h0 hne⟩, ⟨?_, fun h0 => absurd h0 hne⟩,
      ⟨?_, fun h0 => absurd h0 hne⟩⟩
    · rw [restore_backup_emissions, if_neg hne]
      exact hgood
    · rw [extract_archive_emissions, if_neg hne]
      apply goodEmissions_append_one _ (chain_map_range_div _ hnq m)
      intro x hx
      obtain ⟨i, hi, rfl⟩ := List.mem_map.mp hx
      have him : i < m := List.mem_range.mp hi
      constructor
      · positivity
      · rw [div_le_one hnq]
        have : (i : ℚ) + 1 ≤ (m : ℚ) := by exact_mod_cast him
        exact this

/-- C7 counterexample: with a defined total of N = 0, backup creation emits
exactly one 1.0 but does not return immediately: it still writes the
metadata sidecar recording zero files and an empty archive. -/
theorem C7_counterexample :
    create_backup_emissions 0 = [1] ∧
      create_backup [] "1.0" "t" [] =
        [("v1.0_t.meta.json", FileData.meta 0),
         ("v1.0_t.tar.zst", FileData.archive [])] := by
  decide

/-- C7 witness: the three operations at N = 3 with matching member count. -/
theorem C7_progress_monotone_witness :
    (goodEmissions (create_backup_emissions 3) ∧
        (3 = 0 → create_backup_emissions 3 = [1])) ∧
      (goodEmissions (restore_backup_emissions 3 3) ∧
        (3 = 0 → restore_backup_emissions 3 3 = [1])) ∧
      (goodEmissions (extract_archive_emissions 3 3) ∧
        (3 = 0 → extract_archive_emissions 3 3 = [1])) :=
  C7_progress_monotone 3 3 rfl

theorem tryLoop_all_fail (succeed : String → Nat → Bool) (p : String)
    (h : ∀ k, succeed p k = false) :
    tryLoop succeed p 0 3 =
      ([DlEvent.attempt p 1, DlEvent.sleep 3, DlEvent.attempt p 2,
        DlEvent.sleep 3, DlEvent.attempt p 3], false) := by
  simp [tryLoop, h 0, h 1, h 2]

/-- Every provider name appearing after sorting appears in the input dict. -/
theorem get_sorted_urls_names (urls : List (String × String)) :
    ∀ pu ∈ get_sorted_urls urls, ∃ qu ∈ urls, qu.1 = pu.1 := by
  intro pu hpu
  unfold get_sorted_urls at hpu
  cases hfind : urls.find? (fun p => p.1 == "GitHub Git") with
  | none =>
    rw [hfind] at hpu
    exact ⟨pu, hpu, rfl⟩
  | some q =>
    rw [hfind] at hpu
    rcases List.mem_cons.mp hpu with h | h
    · refine ⟨q, List.mem_of_find?_eq_some hfind, ?_⟩
      have := List.find?_some hfind
      simp only [beq_iff_eq] at this
      rw [this, h]
    · exact ⟨pu, List.mem_of_mem_filter h, rfl⟩

theorem map_fst_filter_not_github (l : List (String × String)) :
    List.map Prod.fst (l.filter (fun p => !(p.1 == "GitHub Git"))) =
      (l.map Prod.fst).filter (fun n => !(n == "GitHub Git")) := by
  induction l with
  | nil => rfl
  | cons a t ih =>
    by_cases ha : a.1 = "GitHub Git" <;> simp [List.filter_cons, ha, ih]

theorem dlGo_all_fail (dest : String) (succeed : String → Nat → Bool)
    (l : List (String × String))
    (h : ∀ pu ∈ l, ∀ k, succeed pu.1 k = false) :
    dlGo dest succeed l =
      (l.flatMap (fun pu =>
        [DlEvent.attempt pu.1 1, DlEvent.sleep 3, DlEvent.attempt pu.1 2,
         DlEvent.sleep 3, DlEvent.attempt pu.1 3]) ++ [DlEvent.deleteTemp],
       none) := by
  induction l with
  | nil => simp [dlGo]
  | cons pu rest ih =>
    have hfirst := tryLoop_all_fail succeed pu.1
      (h pu (List.mem_cons_self _ _))
    have hrest := ih (fun qu hq => h qu (List.mem_cons_of_mem _ hq))
    simp [dlGo, hfirst, hrest]

/-- C5: providers are tried in preference order (`GitHub Git` first when
present, the rest in dict-iteration order); when every attempt of every
provider fails, each provider is attempted exactly 3 times with a 3-second
sleep between consecutive attempts of the same provider, the temp file is
deleted last, and `None` is returned rather than an exception propagating. -/
theorem C5_download_fallback (dest : String)
    (urls : List (String × String)) (succeed : String → Nat → Bool)
    (hfail : ∀ pu ∈ urls, ∀ k, succeed pu.1 k = false) :
    ((("GitHub Git" ∈ urls.map Prod.fst) →
        (get_sorted_urls urls).map Prod.fst =
          "GitHub Git" ::
            (urls.map Prod.fst).filter (fun n => !(n == "GitHub Git"))) ∧
      (("GitHub Git" ∉ urls.map Prod.fst) → get_sorted_urls urls = urls)) ∧
      download_file_with_fallback dest urls succeed =
        ((get_sorted_urls urls).flatMap (fun pu =>
          [DlEvent.attempt pu.1 1, DlEvent.sleep 3, DlEvent.attempt pu.1 2,
           DlEvent.sleep 3, DlEvent.attempt pu.1 3]) ++ [DlEvent.deleteTemp],
         none) := by
  constructor
  · constructor
    · intro hmem
      unfold get_sorted_urls
      cases hfind : urls.find? (fun p => p.1 == "GitHub Git") with
      | none =>
        exfalso
        obtain ⟨qu, hq, hq1⟩ := List.mem_map.mp hmem
        have := List.find?_eq_none.mp hfind qu hq
        simp [hq1] at this
      | some q =>
        simp only [List.map_cons]
        congr 1
        exact map_fst_filter_not_github urls
    · intro hnot
      unfold get_sorted_urls
      cases hfind : urls.find? (fun p => p.1 == "GitHub Git") with
      | none => rfl
      | some q =>
        exfalso
        have hq := List.mem_of_find?_eq_some hfind
        have hq1 := List.find?_some hfind
        simp only [beq_iff_eq] at hq1
        exact hnot (List.mem_map.mpr ⟨q, hq, hq1⟩)
  · unfold download_file_with_fallback
    apply dlGo_all_fail
    intro pu hpu k
    obtain ⟨qu, hq, hq1⟩ := get_sorted_urls_names urls pu hpu
    rw [← hq1]
    exact hfail qu hq k

/-- C5 witness: two providers (`Catbox` in front of the preferred
`GitHub Git` in dict order) with an always-failing network. -/
theorem C5_download_fallback_witness :
    ((("GitHub Git" ∈
          ([("Catbox", "u1"), ("GitHub Git", "u2")].map Prod.fst)) →
        (get_sorted_urls [("Catbox", "u1"), ("GitHub Git", "u2")]).map Prod.fst =
          "GitHub Git" ::
            (([("Catbox", "u1"), ("GitHub Git", "u2")].map Prod.fst).filter
              (fun n => !(n == "GitHub Git")))) ∧
      (("GitHub Git" ∉ ([("Catbox", "u1"), ("GitHub Git", "u2")].map Prod.fst)) →
        get_sorted_urls [("Catbox", "u1"), ("GitHub Git", "u2")] =
          [("Catbox", "u1"), ("GitHub Git", "u2")])) ∧
      download_file_with_fallback "tmp" [("Catbox", "u1"), ("GitHub Git", "u2")]
          (fun _ _ => false) =
        ((get_sorted_urls [("Catbox", "u1"), ("GitHub Git", "u2")]).flatMap
            (fun pu =>
          [DlEvent.attempt pu.1 1, DlEvent.sleep 3, DlEvent.attempt pu.1 2,
           DlEvent.sleep 3, DlEvent.attempt pu.1 3]) ++ [DlEvent.deleteTemp],
         none) :=
  C5_download_fallback "tmp" [("Catbox", "u1"), ("GitHub Git", "u2")]
    (fun _ _ => false) (by intro pu _ k; rfl)

/-- C4 witness: with the three concrete providers (one failing), the stage
keeps exactly two download URLs and the workflow publishes an index. -/
theorem C4_partial_upload_tolerance_witness :
    (parallel_upload "1.0" c4Providers).1.length +
        (c4Providers.filter (fun p => p.archive_result.isNone)).length =
      c4Providers.length ∧
      ((∃ p ∈ c4Providers, p.archive_result.isSome) →
        ∃ out, run_publish "1.0" "1.0" c4Providers "GitHub Git"
            "https://canonical/m" [] false = Except.ok out) ∧
      ((∀ p ∈ c4Providers, p.archive_result = none) →
        run_publish "1.0" "1.0" c4Providers "GitHub Git"
            "https://canonical/m" [] false =
          Except.error "Failed to upload archive to any provider. Aborting.") :=
  C4_partial_upload_tolerance "1.0" "1.0" c4Providers "GitHub Git"
    "https://canonical/m" [] false (by decide)

/-- C3 witness: a two-entry index (one stale `latest`) updated by a
non-profiler release 2.0. -/
theorem C3_update_index_single_latest_witness :
    latestNonVariantCount
        (update_version_index
          [{ version := "1.0", manifest_urls := [], download_urls := [],
             latest := true, profiler := false },
           { version := "0.9", manifest_urls := [], download_urls := [],
             latest := false, profiler := false }] "2.0" [] [] false) ≤ 1 ∧
      (false = false →
        (update_version_index
            [{ version := "1.0", manifest_urls := [], download_urls := [],
               latest := true, profiler := false },
             { version := "0.9", manifest_urls := [], download_urls := [],
               latest := false, profiler := false }] "2.0" [] [] false).filter
            (fun e => e.latest) =
          [{ version := "2.0", manifest_urls := [], download_urls := [],
             profiler := false, latest := true }] ∧
          ∀ e ∈ (update_version_index
              [{ version := "1.0", manifest_urls := [], download_urls := [],
                 latest := true, profiler := false },
               { version := "0.9", manifest_urls := [], download_urls := [],
                 latest := false, profiler := false }] "2.0" [] [] false).tail,
            e.latest = false) ∧
      (false = true →
        (update_version_index
            [{ version := "1.0", manifest_urls := [], download_urls := [],
               latest := true, profiler := false },
             { version := "0.9", manifest_urls := [], download_urls := [],
               latest := false, profiler := false }] "2.0" [] [] false).head? =
          some { version := "2.0", manifest_urls := [], download_urls := [],
                 profiler := true, latest := false }) :=
  C3_update_index_single_latest _ "2.0" [] [] false (by decide)

end AOETools
